import Mathlib

/-!
Shallow embedding of the dense-matrix reduction machinery of the Blaze
header `blaze/math/expressions/DMatReduceExpr.h`.

A row-major dense matrix is modelled by its logical dimensions together
with an entry function; the element type is kept generic where the source
is generic, and instantiated with `Int` for the arithmetic kernels (the
exact integers model the associative and commutative arithmetic the
source documentation assumes for deterministic reductions).

Line numbers in the doc comments refer to `DMatReduceExpr.h`.
-/

namespace Blaze

/-- A row-major dense matrix operand: logical dimensions (`rows()`,
`columns()`) and the element access `operator()(i,j)`. -/
structure DMat (α : Type) where
  rows : Nat
  cols : Nat
  entry : Nat → Nat → α

variable {α : Type}

/-- The view `column( dm_, index, unchecked )`: the sequence of entries
of column `j`, top to bottom. -/
def columnOf (A : DMat α) (j : Nat) : List α :=
  (List.range A.rows).map (fun i => A.entry i j)

/-- The view `row( dm_, index, unchecked )`: the sequence of entries of
row `i`, left to right. -/
def rowOf (A : DMat α) (i : Nat) : List α :=
  (List.range A.cols).map (fun j => A.entry i j)

/-- Modelled from the spec: the total reduction of a dense vector
(`reduce( vector, op )`, whose implementation `DVecReduceExpr.h` is not
among the sources). Per the spec a vector is reduced by successive
application of the combining operation over its elements; an empty
vector reduces to the default (zero) element `dflt`, and a one-element
vector reduces to that element. -/
def dvecreduce (dflt : α) (op : α → α → α) : List α → α
  | [] => dflt
  | x :: xs => xs.foldl op x

/-- Subscript `operator[]` of the column-wise reduction expression
`DMatReduceExpr<0UL,MT,OP>` (lines 185-188): reduces column `index` of
the matrix operand with the stored operation. -/
def reduceExpr0Elem (dflt : α) (op : α → α → α) (A : DMat α) (index : Nat) : α :=
  dvecreduce dflt op (columnOf A index)

/-- Subscript `operator[]` of the row-wise reduction expression
`DMatReduceExpr<1UL,MT,OP>` (lines 1072-1075): reduces row `index` of
the matrix operand with the stored operation. -/
def reduceExpr1Elem (dflt : α) (op : α → α → α) (A : DMat α) (index : Nat) : α :=
  dvecreduce dflt op (rowOf A index)

/-- Checked access `at` of the column-wise reduction expression
(lines 198-203); `size()` is the column count of the operand
(lines 211-213). The thrown `std::out_of_range` is modelled by the
error case of `Except`. -/
def reduceExpr0At (dflt : α) (op : α → α → α) (A : DMat α) (index : Nat) :
    Except String α :=
  if A.cols ≤ index then .error "Invalid vector access index"
  else .ok (reduceExpr0Elem dflt op A index)

/-- Checked access `at` of the row-wise reduction expression
(lines 1085-1090); `size()` is the row count of the operand
(lines 1118-1120). -/
def reduceExpr1At (dflt : α) (op : α → α → α) (A : DMat α) (index : Nat) :
    Except String α :=
  if A.rows ≤ index then .error "Invalid vector access index"
  else .ok (reduceExpr1Elem dflt op A index)

/-- Specification-side reduction of the finite sequence
`f 0, f 1, ..., f (n-1)`: the first element combined with the remaining
elements in index order, the empty sequence giving the default
element. -/
def specReduceSeq (dflt : α) (op : α → α → α) (n : Nat) (f : Nat → α) : α :=
  if n = 0 then dflt
  else (List.range' 1 (n - 1)).foldl (fun r k => op r (f k)) (f 0)

/-- The row accumulation loop of the default reduction backend
(`redux = tmp(i,0); for j in [1,N): redux = op(redux, tmp(i,j))`,
lines 1584-1588 and 1609-1613). -/
def rowReduce (op : α → α → α) (A : DMat α) (i : Nat) : α :=
  (List.range' 1 (A.cols - 1)).foldl (fun r j => op r (A.entry i j)) (A.entry i 0)

/-- The interleaved inner column loop of the two-way unrolled row block
(lines 1595-1601): both accumulators `redux1` and `redux2` advance in
lockstep over the columns. -/
def rowReducePair (op : α → α → α) (A : DMat α) (i : Nat) : α × α :=
  (List.range' 1 (A.cols - 1)).foldl
    (fun p j => (op p.1 (A.entry i j), op p.2 (A.entry (i + 1) j)))
    (A.entry i 0, A.entry (i + 1) 0)

/-- The two-way unrolled row loop of the default reduction backend
(`for(; (i+2UL) <= M; i+=2UL)`, lines 1593-1605): each pass folds two
rows, combines them (`redux1 = op(redux1, redux2)`) and merges into the
running accumulator (`redux0 = op(redux0, redux1)`). Returns the
accumulator together with the final row index `i`. -/
def scalarRows2 (op : α → α → α) (A : DMat α) (i : Nat) (redux0 : α) : α × Nat :=
  if _h : i + 2 ≤ A.rows then
    let p := rowReducePair op A i
    scalarRows2 op A (i + 2) (op redux0 (op p.1 p.2))
  else (redux0, i)
termination_by A.rows - i

/-- Default (non-vectorized) backend `dmatreduce` for row-major dense
matrices (lines 1562-1619): empty matrices reduce to the default
element, a 1x1 matrix returns its sole entry directly, and otherwise
row 0 seeds the accumulator, the rows are consumed by the two-way
unrolled loop, and a final odd row is folded in at the end. -/
def dmatreduceScalar (dflt : α) (op : α → α → α) (A : DMat α) : α :=
  if A.rows = 0 ∨ A.cols = 0 then dflt
  else if A.rows = 1 ∧ A.cols = 1 then A.entry 0 0
  else
    let st := scalarRows2 op A 1 (rowReduce op A 0)
    if st.2 < A.rows then op st.1 (rowReduce op A st.2)
    else st.1

/-- A SIMD register of `SIMDSIZE = L` lanes is modelled as a list of `L`
integers. `tmp.load(i,j)` reads the `L` consecutive entries of row `i`
starting at column `j`; for a padded operand the lanes beyond the last
column read the padding elements of the storage. -/
def simdLoad (L : Nat) (A : DMat Int) (i j : Nat) : List Int :=
  (List.range L).map (fun k => A.entry i (j + k))

/-- Lane-wise addition of two SIMD registers (`operator+=` on packs). -/
def addv (x y : List Int) : List Int := List.zipWith (· + ·) x y

/-- The zero-initialized SIMD register `SIMDTrait_t<ET> xmm1;`. -/
def zerov (L : Nat) : List Int := List.replicate L 0

/-- State of the inner vectorized column loop of a four-row block: the
four running registers together with the loop counter `j`. -/
structure Simd4 where
  x1 : List Int
  x2 : List Int
  x3 : List Int
  x4 : List Int
  j : Nat

/-- State of the inner vectorized column loop of a two-row block. -/
structure Simd2 where
  x1 : List Int
  x2 : List Int
  j : Nat

/-- Inner vectorized column loop of the four-way row block of the
addition backend (`for(; j<jpos; j+=SIMDSIZE)`, lines 1820-1825): one
load accumulated per register per pass. The conjunct `0 < L` only makes
termination explicit; `SIMDSIZE` is always positive in the source. -/
def addChunkLoop4 (L : Nat) (A : DMat Int) (i jpos : Nat) (j : Nat)
    (x1 x2 x3 x4 : List Int) : Simd4 :=
  if _h : j < jpos ∧ 0 < L then
    addChunkLoop4 L A i jpos (j + L)
      (addv x1 (simdLoad L A i j)) (addv x2 (simdLoad L A (i + 1) j))
      (addv x3 (simdLoad L A (i + 2) j)) (addv x4 (simdLoad L A (i + 3) j))
  else ⟨x1, x2, x3, x4, j⟩
termination_by jpos - j
decreasing_by omega

/-- Inner vectorized column loop of the two-row block of the addition
backend (lines 1844-1847). -/
def addChunkLoop2 (L : Nat) (A : DMat Int) (i jpos : Nat) (j : Nat)
    (x1 x2 : List Int) : Simd2 :=
  if _h : j < jpos ∧ 0 < L then
    addChunkLoop2 L A i jpos (j + L)
      (addv x1 (simdLoad L A i j)) (addv x2 (simdLoad L A (i + 1) j))
  else ⟨x1, x2, j⟩
termination_by jpos - j
decreasing_by omega

/-- Inner vectorized column loop of the single-row block of the
addition backend (lines 1863-1865). -/
def addChunkLoop1 (L : Nat) (A : DMat Int) (i jpos : Nat) (j : Nat)
    (x1 : List Int) : List Int × Nat :=
  if _h : j < jpos ∧ 0 < L then
    addChunkLoop1 L A i jpos (j + L) (addv x1 (simdLoad L A i j))
  else (x1, j)
termination_by jpos - j
decreasing_by omega

/-- Scalar remainder loop of the four-row block
(`for(; remainder && j<N; ++j)`, lines 1826-1831): the four row entries
of each remaining column are added to the scalar accumulator in order. -/
def addTail4 (A : DMat Int) (remainder : Bool) (i j : Nat) (redux : Int) : Int :=
  if remainder then
    (List.range' j (A.cols - j)).foldl
      (fun r jj => r + A.entry i jj + A.entry (i + 1) jj +
        A.entry (i + 2) jj + A.entry (i + 3) jj) redux
  else redux

/-- Scalar remainder loop of the two-row block (lines 1848-1851). -/
def addTail2 (A : DMat Int) (remainder : Bool) (i j : Nat) (redux : Int) : Int :=
  if remainder then
    (List.range' j (A.cols - j)).foldl
      (fun r jj => r + A.entry i jj + A.entry (i + 1) jj) redux
  else redux

/-- Scalar remainder loop of the single-row block (lines 1866-1868). -/
def addTail1 (A : DMat Int) (remainder : Bool) (i j : Nat) (redux : Int) : Int :=
  if remainder then
    (List.range' j (A.cols - j)).foldl (fun r jj => r + A.entry i jj) redux
  else redux

/-- The four-way unrolled row loop of the addition backend
(`for(; (i+4UL) <= M; i+=4UL)`, lines 1812-1836): per pass, register 1
accumulates a load of row `i`, registers 2-4 are seeded from rows
`i+1..i+3`, the vector column loop and the scalar remainder loop run,
and the four registers are combined pairwise back into register 1.
Returns the surviving register, the scalar accumulator and the final
row index. -/
def addRows4 (L : Nat) (A : DMat Int) (jpos : Nat) (remainder : Bool)
    (i : Nat) (x1 : List Int) (redux : Int) : List Int × Int × Nat :=
  if _h : i + 4 ≤ A.rows then
    let c := addChunkLoop4 L A i jpos L (addv x1 (simdLoad L A i 0))
      (simdLoad L A (i + 1) 0) (simdLoad L A (i + 2) 0) (simdLoad L A (i + 3) 0)
    addRows4 L A jpos remainder (i + 4)
      (addv (addv c.x1 c.x2) (addv c.x3 c.x4)) (addTail4 A remainder i c.j redux)
  else (x1, redux, i)
termination_by A.rows - i
decreasing_by omega

/-- Vectorized addition backend
`dmatreduce( const DenseMatrix<MT,false>& dm, Add )` (lines 1782-1884):
empty matrices return the default element; when the remainder loops are
needed and fewer than `SIMDSIZE` columns exist, a plain scalar double
loop runs; otherwise the four-way row loop, an optional two-row block
and an optional final row feed the SIMD accumulator whose horizontal
sum is added to the scalar accumulator at the end. `remainder` models
the compile-time switch `!usePadding || !IsPadded_v` of line 1799. -/
def dmatreduceAdd (L : Nat) (remainder : Bool) (A : DMat Int) : Int :=
  if A.rows = 0 ∨ A.cols = 0 then 0
  else if remainder = false ∨ L ≤ A.cols then
    let jpos := if remainder then A.cols - A.cols % L else A.cols
    let r4 := addRows4 L A jpos remainder 0 (zerov L) 0
    let r2 :=
      if r4.2.2 + 2 ≤ A.rows then
        let c := addChunkLoop2 L A r4.2.2 jpos L
          (addv r4.1 (simdLoad L A r4.2.2 0)) (simdLoad L A (r4.2.2 + 1) 0)
        (addv c.x1 c.x2, addTail2 A remainder r4.2.2 c.j r4.2.1, r4.2.2 + 2)
      else r4
    let r1 :=
      if r2.2.2 < A.rows then
        let c := addChunkLoop1 L A r2.2.2 jpos L (addv r2.1 (simdLoad L A r2.2.2 0))
        (c.1, addTail1 A remainder r2.2.2 c.2 r2.2.1)
      else (r2.1, r2.2.1)
    r1.2 + r1.1.sum
  else
    (List.range A.rows).foldl
      (fun r i => (List.range A.cols).foldl (fun r j => r + A.entry i j) r) 0

/-- The brute-force double loop of the spec: add up every element of
the matrix in a fixed row-by-row order. -/
def naiveSum (A : DMat Int) : Int :=
  (List.range A.rows).foldl
    (fun r i => (List.range A.cols).foldl (fun r j => r + A.entry i j) r) 0

/-- Mathematical total of the matrix entries. -/
def specSum (A : DMat Int) : Int :=
  ∑ i ∈ Finset.range A.rows, ∑ j ∈ Finset.range A.cols, A.entry i j

/-- Partial row total: the entries of row `i` in columns `[a, b)`. -/
def rowIco (A : DMat Int) (i a b : Nat) : Int :=
  ∑ j ∈ Finset.Ico a b, A.entry i j

/-- Total of the full rows with indices in `[lo, hi)`. -/
def blockSum (A : DMat Int) (lo hi : Nat) : Int :=
  ∑ i ∈ Finset.Ico lo hi, rowIco A i 0 A.cols

/-- Lane-wise application of the reduction operation to two SIMD
registers: in the generic vectorized backend the functor applied to two
packs acts on each lane. -/
def opv (op : Int → Int → Int) (x y : List Int) : List Int := List.zipWith op x y

/-- Scalar tail of a vectorized single-register block of the generic
backend (`for(; j<N; ++j) xmm1[0] = op(xmm1[0], tmp(i,j))`, e.g. lines
1673-1675): only lane 0 of the register is updated. -/
def laneTail1 (op : Int → Int → Int) (A : DMat Int) (i j : Nat)
    (x : List Int) : List Int :=
  (List.range' j (A.cols - j)).foldl
    (fun x jj => x.set 0 (op (x.getD 0 0) (A.entry i jj))) x

/-- Scalar tail of the two-register block of the generic backend
(lines 1716-1719). -/
def laneTail2 (op : Int → Int → Int) (A : DMat Int) (i j : Nat)
    (x1 x2 : List Int) : List Int × List Int :=
  (List.range' j (A.cols - j)).foldl
    (fun s jj => (s.1.set 0 (op (s.1.getD 0 0) (A.entry i jj)),
                  s.2.set 0 (op (s.2.getD 0 0) (A.entry (i + 1) jj)))) (x1, x2)

/-- Scalar tail of the four-register block of the generic backend
(lines 1694-1699). -/
def laneTail4 (op : Int → Int → Int) (A : DMat Int) (i j : Nat)
    (x1 x2 x3 x4 : List Int) :
    List Int × List Int × List Int × List Int :=
  (List.range' j (A.cols - j)).foldl
    (fun s jj => (s.1.set 0 (op (s.1.getD 0 0) (A.entry i jj)),
                  s.2.1.set 0 (op (s.2.1.getD 0 0) (A.entry (i + 1) jj)),
                  s.2.2.1.set 0 (op (s.2.2.1.getD 0 0) (A.entry (i + 2) jj)),
                  s.2.2.2.set 0 (op (s.2.2.2.getD 0 0) (A.entry (i + 3) jj))))
    (x1, x2, x3, x4)

/-- Inner vectorized column loop of the four-row block of the generic
backend (lines 1688-1693); as for the addition backend, the conjunct
`0 < L` only makes termination explicit. -/
def genChunkLoop4 (op : Int → Int → Int) (L : Nat) (A : DMat Int)
    (i jpos : Nat) (j : Nat) (x1 x2 x3 x4 : List Int) : Simd4 :=
  if _h : j < jpos ∧ 0 < L then
    genChunkLoop4 op L A i jpos (j + L)
      (opv op x1 (simdLoad L A i j)) (opv op x2 (simdLoad L A (i + 1) j))
      (opv op x3 (simdLoad L A (i + 2) j)) (opv op x4 (simdLoad L A (i + 3) j))
  else ⟨x1, x2, x3, x4, j⟩
termination_by jpos - j
decreasing_by omega

/-- Inner vectorized column loop of the two-row block of the generic
backend (lines 1712-1715). -/
def genChunkLoop2 (op : Int → Int → Int) (L : Nat) (A : DMat Int)
    (i jpos : Nat) (j : Nat) (x1 x2 : List Int) : Simd2 :=
  if _h : j < jpos ∧ 0 < L then
    genChunkLoop2 op L A i jpos (j + L)
      (opv op x1 (simdLoad L A i j)) (opv op x2 (simdLoad L A (i + 1) j))
  else ⟨x1, x2, j⟩
termination_by jpos - j
decreasing_by omega

/-- Inner vectorized column loop of a single-register block of the
generic backend (lines 1670-1672 and 1731-1733). -/
def genChunkLoop1 (op : Int → Int → Int) (L : Nat) (A : DMat Int)
    (i jpos : Nat) (j : Nat) (x1 : List Int) : List Int × Nat :=
  if _h : j < jpos ∧ 0 < L then
    genChunkLoop1 op L A i jpos (j + L) (opv op x1 (simdLoad L A i j))
  else (x1, j)
termination_by jpos - j
decreasing_by omega

/-- The four-way unrolled row loop of the generic vectorized backend
(`for(; (i+4UL) <= M; i+=4UL)`, lines 1680-1704): register 1 is
combined with a load of row `i`, registers 2-4 are seeded from rows
`i+1..i+3`, the vector column loop and the lane-0 tails run, and the
registers are combined pairwise with the operation. -/
def genRows4 (op : Int → Int → Int) (L : Nat) (A : DMat Int) (jpos : Nat)
    (i : Nat) (x1 : List Int) : List Int × Nat :=
  if _h : i + 4 ≤ A.rows then
    let c := genChunkLoop4 op L A i jpos L (opv op x1 (simdLoad L A i 0))
      (simdLoad L A (i + 1) 0) (simdLoad L A (i + 2) 0) (simdLoad L A (i + 3) 0)
    let t := laneTail4 op A i c.j c.x1 c.x2 c.x3 c.x4
    genRows4 op L A jpos (i + 4)
      (opv op (opv op t.1 t.2.1) (opv op t.2.2.1 t.2.2.2))
  else (x1, i)
termination_by A.rows - i
decreasing_by omega

/-- Generic vectorized backend
`dmatreduce( const DenseMatrix<MT,false>& dm, OP )` (lines 1637-1765):
empty matrices return the default element; with fewer than `SIMDSIZE`
columns a plain scalar double loop seeded by `tmp(0,0)` runs; otherwise
row 0 seeds the register, the unrolled row blocks run, and the final
horizontal reduction either takes the product of the lanes (`prod`,
when the operation is the multiplication functor, line 1739-1741) or
combines the lanes with the operation one by one (lines 1743-1746).
`isMult` models the compile-time test `IsSame_v<OP,Mult>`. -/
def dmatreduceSIMD (L : Nat) (op : Int → Int → Int) (isMult : Bool)
    (A : DMat Int) : Int :=
  if A.rows = 0 ∨ A.cols = 0 then 0
  else if L ≤ A.cols then
    let jpos := A.cols - A.cols % L
    let p0 := genChunkLoop1 op L A 0 jpos L (simdLoad L A 0 0)
    let x0 := laneTail1 op A 0 p0.2 p0.1
    let r4 := genRows4 op L A jpos 1 x0
    let r2 :=
      if r4.2 + 2 ≤ A.rows then
        let c := genChunkLoop2 op L A r4.2 jpos L
          (opv op r4.1 (simdLoad L A r4.2 0)) (simdLoad L A (r4.2 + 1) 0)
        let t := laneTail2 op A r4.2 c.j c.x1 c.x2
        (opv op t.1 t.2, r4.2 + 2)
      else r4
    let r1 :=
      if r2.2 < A.rows then
        let c := genChunkLoop1 op L A r2.2 jpos L
          (opv op r2.1 (simdLoad L A r2.2 0))
        laneTail1 op A r2.2 c.2 c.1
      else r2.1
    if isMult then r1.prod
    else (List.range' 1 (L - 1)).foldl (fun r k => op r (r1.getD k 0)) (r1.getD 0 0)
  else
    let redux := (List.range' 1 (A.cols - 1)).foldl
      (fun r j => op r (A.entry 0 j)) (A.entry 0 0)
    (List.range' 1 (A.rows - 1)).foldl
      (fun r i => (List.range A.cols).foldl (fun r j => op r (A.entry i j)) r)
      redux

/-- The transposed view `trans( dm )` of a matrix. -/
def DMat.trans (A : DMat α) : DMat α :=
  ⟨A.cols, A.rows, fun i j => A.entry j i⟩

/-- Total reduction of a column-major dense matrix (lines 1902-1907):
the computation is delegated to the reduction of the row-major
transpose. For a general custom operation the delegate is the default
(non-vectorized) backend. -/
def dmatreduceCM (dflt : α) (op : α → α → α) (A : DMat α) : α :=
  dmatreduceScalar dflt op A.trans

/-- Element `k` of `reduce_backend<RF>` applied to a column-major
matrix (lines 1974-1980): the result is
`trans( reduce<1UL-RF>( trans( dm ), op ) )`, so its element `k` is
element `k` of the reduction with flipped axis of the transpose
(transposing a vector reorders nothing). -/
def reduceBackendCMElem (RF : Nat) (dflt : α) (op : α → α → α) (A : DMat α)
    (k : Nat) : α :=
  if RF = 0 then reduceExpr1Elem dflt op A.trans k
  else reduceExpr0Elem dflt op A.trans k

/-- Element `k` of `reduce_backend<RF>` applied to the same logical
matrix stored row-major (lines 1954-1960): element `k` of
`DMatReduceExpr<RF>`. -/
def reduceBackendRMElem (RF : Nat) (dflt : α) (op : α → α → α) (A : DMat α)
    (k : Nat) : α :=
  if RF = 0 then reduceExpr0Elem dflt op A k
  else reduceExpr1Elem dflt op A k

/-- The view `row( tmp, i, unchecked )` of the evaluated operand as a
plain list (the target element order of the assignment protocol). -/
def rowVec (A : DMat Int) (i : Nat) : List Int :=
  (List.range A.cols).map (A.entry i)

/-- The effect of `reset( ~lhs )` on a dense vector of size `n`: every
element becomes the default (zero) element. -/
def resetVec (n : Nat) : List Int := List.replicate n 0

/-- Plain assignment of the column-wise reduction expression to a dense
vector (lines 298-318): a zero-row operand resets the target; otherwise
row 0 of the evaluated operand is assigned and every further row is
combined in via `map( ~lhs, row(tmp,i), op )`. The previous contents of
the target (of size `columns`) are discarded, so the result depends
only on the expression. -/
def assignColwise (op : Int → Int → Int) (A : DMat Int) : List Int :=
  if A.rows = 0 then resetVec A.cols
  else (List.range' 1 (A.rows - 1)).foldl
    (fun lhs i => List.zipWith op lhs (rowVec A i)) (rowVec A 0)

/-- Addition assignment of the column-wise reduction expression to a
dense vector (lines 364-385): a zero-row operand returns immediately;
`isAdd` models the compile-time test `IsSame_v<OP,Add>`, on which path
the rows of the evaluated operand are added into the target one by one;
otherwise the reduction is materialized into a temporary first and then
added elementwise. -/
def addAssignColwise (op : Int → Int → Int) (isAdd : Bool) (A : DMat Int)
    (lhs : List Int) : List Int :=
  if A.rows = 0 then lhs
  else if isAdd then
    (List.range A.rows).foldl (fun l i => List.zipWith (· + ·) l (rowVec A i)) lhs
  else List.zipWith (· + ·) lhs (assignColwise op A)

/-- Subtraction assignment of the column-wise reduction expression to a
dense vector (lines 432-453), with the same structure as the addition
assignment. -/
def subAssignColwise (op : Int → Int → Int) (isAdd : Bool) (A : DMat Int)
    (lhs : List Int) : List Int :=
  if A.rows = 0 then lhs
  else if isAdd then
    (List.range A.rows).foldl (fun l i => List.zipWith (· - ·) l (rowVec A i)) lhs
  else List.zipWith (· - ·) lhs (assignColwise op A)

/-- Multiplication assignment of the column-wise reduction expression
to a dense vector (lines 500-521): a zero-row operand resets the
target; `isMult` models `IsSame_v<OP,Mult>`, on which path the rows of
the evaluated operand are multiplied into the target one by one;
otherwise the reduction is materialized first and then multiplied in
elementwise. -/
def multAssignColwise (op : Int → Int → Int) (isMult : Bool) (A : DMat Int)
    (lhs : List Int) : List Int :=
  if A.rows = 0 then resetVec lhs.length
  else if isMult then
    (List.range A.rows).foldl (fun l i => List.zipWith (· * ·) l (rowVec A i)) lhs
  else List.zipWith (· * ·) lhs (assignColwise op A)

/-- Addition assignment of the row-wise reduction expression to a
vector (lines 1235-1245): the operand is evaluated and the freshly
computed row-wise reduction is added into the target elementwise. -/
def addAssignRowwise (op : Int → Int → Int) (A : DMat Int)
    (lhs : List Int) : List Int :=
  List.zipWith (· + ·) lhs ((List.range A.rows).map (reduceExpr1Elem 0 op A))

/-- Specification-side column totals of a matrix: position `j` holds
the sum of column `j`. -/
def colSumsVec (A : DMat Int) : List Int :=
  (List.range A.cols).map (fun j => ∑ i ∈ Finset.range A.rows, A.entry i j)

/-- Shape of the `simdEnabled` capability that an operation type may
declare: absent, a compile-time boolean constant, or a callable probe.
`UseSIMDEnabledFlag::test` has one overload for each of the two
declared shapes (lines 1523-1527). -/
inductive SimdCapability where
  | absent : SimdCapability
  | const : Bool → SimdCapability
  | probe : (Unit → Bool) → SimdCapability

/-- Static description of the types entering the SIMD decision: whether
the composite type of the operand declares SIMD-enabled storage
(`CT::simdEnabled`), the `simdEnabled` capability declared by the
operation (`HasSIMDEnabled`), and whether the operation exposes a
vectorized `load` member (`HasLoad`). -/
structure SimdTraits where
  ctSimdEnabled : Bool
  capability : SimdCapability
  hasLoad : Bool

/-- Value of `UseSIMDEnabledFlag` (lines 1523-1527): a constant
capability is taken as is and a function-valued capability is invoked;
the structure is only instantiated when the operation declares the
member, so the absent case is never reached by the helper. -/
def useSIMDEnabledFlag : SimdCapability → Bool
  | .absent => false
  | .const b => b
  | .probe f => f ()

/-- The decision `DMatReduceExprHelper<MT,OP>::value` (lines
1532-1535): the composite type must declare SIMD-enabled storage, and
then the declared `simdEnabled` capability decides if present,
otherwise the presence of a vectorized `load` member does. -/
def dmatReduceHelperValue (t : SimdTraits) : Bool :=
  t.ctSimdEnabled &&
    (match t.capability with
     | .absent => t.hasLoad
     | c => useSIMDEnabledFlag c)

/-- The SFINAE dispatch between the vectorized backend
(`EnableIf_t< DMatReduceExprHelper<MT,OP>::value >`, lines 1639-1640)
and the scalar fallback (`DisableIf_t`, lines 1564-1565): exactly one
of the two overloads participates in overload resolution, decided by
the helper value. -/
def dmatreduceDispatch (t : SimdTraits) (L : Nat) (op : Int → Int → Int)
    (isMult : Bool) (A : DMat Int) : Int :=
  if dmatReduceHelperValue t then dmatreduceSIMD L op isMult A
  else dmatreduceScalar 0 op A

/-- The `ConstIterator` of the row-wise reduction expression: the
matrix operand, the current row index and the reduction operation
(constructor at lines 842-846, members at lines 1038-1043). -/
structure ConstIterator (α : Type) where
  dm : DMat α
  index : Nat
  op : α → α → α

/-- Dereference `operator*` of the iterator (lines 920-922): the
reduction of the current row of the operand. -/
def ConstIterator.deref (dflt : α) (it : ConstIterator α) : α :=
  dvecreduce dflt it.op (rowOf it.dm it.index)

/-- The `begin()` iterator of the row-wise reduction expression
(lines 1098-1100). -/
def reduceExpr1Begin (op : α → α → α) (A : DMat α) : ConstIterator α :=
  ⟨A, 0, op⟩

/-- Modelled from the spec: iterator offset addition keeping the same
operand and operation. The source `operator+` (lines 1009-1011) and the
postfix `operator++` (lines 889-891) pass only the index to the
three-parameter constructor and therefore do not compile when
instantiated; the spec requires a random-access cursor over the same
operand, which this definition captures. -/
def iterAddSpec (it : ConstIterator α) (inc : Nat) : ConstIterator α :=
  ⟨it.dm, it.index + inc, it.op⟩

section FoldLemmas

theorem dvecreduce_map_range (dflt : α) (op : α → α → α) (n : Nat) (f : Nat → α) :
    dvecreduce dflt op ((List.range n).map f) = specReduceSeq dflt op n f := by
  cases n with
  | zero => simp [dvecreduce, specReduceSeq]
  | succ m =>
    rw [List.range_eq_range', List.range'_succ]
    simp only [List.map_cons, dvecreduce, List.foldl_map]
    rw [specReduceSeq, if_neg (Nat.succ_ne_zero m), Nat.succ_sub_one]

theorem foldl_add_range' (f : Nat → Int) :
    ∀ (n s : Nat) (a : Int),
      (List.range' s n).foldl (fun r j => r + f j) a =
        a + ∑ j ∈ Finset.Ico s (s + n), f j := by
  intro n
  induction n with
  | zero => intro s a; simp
  | succ m ih =>
    intro s a
    rw [List.range'_succ, List.foldl_cons, ih (s + 1)]
    rw [Finset.sum_eq_sum_Ico_succ_bot (show s < s + (m + 1) by omega)]
    have h : s + 1 + m = s + (m + 1) := by omega
    rw [h]
    ring

theorem foldl_add_range (f : Nat → Int) (n : Nat) (a : Int) :
    (List.range n).foldl (fun r j => r + f j) a =
      a + ∑ j ∈ Finset.range n, f j := by
  rw [List.range_eq_range', foldl_add_range', Finset.range_eq_Ico]
  simp

theorem foldl_pair (g1 g2 : α → Nat → α) :
    ∀ (l : List Nat) (a b : α),
      l.foldl (fun p j => (g1 p.1 j, g2 p.2 j)) (a, b) =
        (l.foldl g1 a, l.foldl g2 b) := by
  intro l
  induction l with
  | nil => intro a b; rfl
  | cons x xs ih => intro a b; simp only [List.foldl_cons, ih]

end FoldLemmas

theorem naiveSum_eq_specSum (A : DMat Int) : naiveSum A = specSum A := by
  rw [naiveSum, specSum]
  have h : (fun (r : Int) (i : Nat) =>
        (List.range A.cols).foldl (fun r j => r + A.entry i j) r) =
      fun r i => r + ∑ j ∈ Finset.range A.cols, A.entry i j := by
    funext r i
    rw [foldl_add_range]
  rw [h, foldl_add_range]
  simp

theorem specSum_eq_blockSum (A : DMat Int) : specSum A = blockSum A 0 A.rows := by
  rw [specSum, blockSum]
  simp only [Finset.range_eq_Ico, rowIco]

theorem blockSum_split (A : DMat Int) {a b c : Nat} (hab : a ≤ b) (hbc : b ≤ c) :
    blockSum A a c = blockSum A a b + blockSum A b c := by
  rw [blockSum, blockSum, blockSum, Finset.sum_Ico_consecutive _ hab hbc]

theorem blockSum_pair (A : DMat Int) (i : Nat) :
    blockSum A i (i + 2) = rowIco A i 0 A.cols + rowIco A (i + 1) 0 A.cols := by
  rw [blockSum, show i + 2 = (i + 1) + 1 by rfl,
    Finset.sum_Ico_succ_top (by omega), Finset.sum_Ico_succ_top (by omega)]
  simp

theorem blockSum_single (A : DMat Int) (i : Nat) :
    blockSum A i (i + 1) = rowIco A i 0 A.cols := by
  rw [blockSum, Finset.sum_Ico_succ_top (by omega)]
  simp [blockSum]

theorem rowReduce_add (A : DMat Int) (i : Nat) (h : 0 < A.cols) :
    rowReduce (· + ·) A i = rowIco A i 0 A.cols := by
  rw [rowReduce, foldl_add_range', rowIco,
    Finset.sum_eq_sum_Ico_succ_bot h]
  have h1 : 1 + (A.cols - 1) = A.cols := by omega
  rw [h1]

theorem rowReducePair_eq (op : α → α → α) (A : DMat α) (i : Nat) :
    rowReducePair op A i = (rowReduce op A i, rowReduce op A (i + 1)) := by
  rw [rowReducePair, rowReduce, rowReduce]
  exact foldl_pair (fun r j => op r (A.entry i j))
    (fun r j => op r (A.entry (i + 1) j)) _ _ _

theorem scalarRows2_spec (A : DMat Int) (hN : 0 < A.cols) :
    ∀ (i : Nat) (r0 : Int), i ≤ A.rows →
      (scalarRows2 (· + ·) A i r0).1 =
          r0 + blockSum A i (scalarRows2 (· + ·) A i r0).2 ∧
        i ≤ (scalarRows2 (· + ·) A i r0).2 ∧
        (scalarRows2 (· + ·) A i r0).2 ≤ A.rows ∧
        A.rows < (scalarRows2 (· + ·) A i r0).2 + 2 := by
  have aux : ∀ (k i : Nat) (r0 : Int), A.rows ≤ i + k → i ≤ A.rows →
      (scalarRows2 (· + ·) A i r0).1 =
          r0 + blockSum A i (scalarRows2 (· + ·) A i r0).2 ∧
        i ≤ (scalarRows2 (· + ·) A i r0).2 ∧
        (scalarRows2 (· + ·) A i r0).2 ≤ A.rows ∧
        A.rows < (scalarRows2 (· + ·) A i r0).2 + 2 := by
    intro k
    induction k with
    | zero =>
      intro i r0 hk hiM
      rw [scalarRows2, dif_neg (by omega)]
      refine ⟨by simp [blockSum], by simp, by simpa using hiM, by simp; omega⟩
    | succ m ih =>
      intro i r0 hk hiM
      rw [scalarRows2]
      by_cases h : i + 2 ≤ A.rows
      · rw [dif_pos h]
        simp only [rowReducePair_eq]
        obtain ⟨hs, hle, hMr, hlt⟩ := ih (i + 2)
          (r0 + (rowReduce (· + ·) A i + rowReduce (· + ·) A (i + 1)))
          (by omega) (by omega)
        set st2 := scalarRows2 (· + ·) A (i + 2)
          (r0 + (rowReduce (· + ·) A i + rowReduce (· + ·) A (i + 1))) with hst
        refine ⟨?_, le_trans (show i ≤ i + 2 by omega) hle, hMr, hlt⟩
        rw [hs, blockSum_split A (show i ≤ i + 2 by omega) hle, blockSum_pair,
          rowReduce_add A i hN, rowReduce_add A (i + 1) hN]
        ring
      · rw [dif_neg h]
        refine ⟨by simp [blockSum], by simp, by simpa using hiM, by simp; omega⟩
  intro i r0 hiM
  exact aux A.rows i r0 (by omega) hiM

theorem dmatreduceScalar_add (A : DMat Int) :
    dmatreduceScalar 0 (· + ·) A = specSum A := by
  by_cases h0 : A.rows = 0 ∨ A.cols = 0
  · rw [dmatreduceScalar, if_pos h0, specSum]
    rcases h0 with h | h <;> simp [h]
  · by_cases h1 : A.rows = 1 ∧ A.cols = 1
    · rw [dmatreduceScalar, if_neg h0, if_pos h1, specSum, h1.1, h1.2]
      simp
    · push_neg at h0
      have hM : 0 < A.rows := Nat.pos_of_ne_zero h0.1
      have hN : 0 < A.cols := Nat.pos_of_ne_zero h0.2
      simp only [dmatreduceScalar,
        if_neg (show ¬(A.rows = 0 ∨ A.cols = 0) by omega), if_neg h1]
      obtain ⟨hs, hle, hM2, hlt⟩ := scalarRows2_spec A hN 1 (rowReduce (· + ·) A 0) hM
      set st := scalarRows2 (· + ·) A 1 (rowReduce (· + ·) A 0) with hstdef
      have hb01 : blockSum A 0 1 = rowIco A 0 0 A.cols := blockSum_single A 0
      rw [specSum_eq_blockSum,
        blockSum_split A (show (0 : Nat) ≤ 1 by omega) (show 1 ≤ A.rows by omega),
        hb01]
      by_cases hfin : st.2 < A.rows
      · rw [if_pos hfin, hs, rowReduce_add A 0 hN, rowReduce_add A st.2 hN]
        have hform : A.rows = st.2 + 1 := by omega
        conv_rhs => rw [hform]
        rw [blockSum_split A hle (show st.2 ≤ st.2 + 1 by omega), blockSum_single]
        ring
      · rw [if_neg hfin, hs, rowReduce_add A 0 hN]
        have hform : st.2 = A.rows := by omega
        rw [hform]

section SimdLemmas

theorem simdLoad_length (L : Nat) (A : DMat Int) (i j : Nat) :
    (simdLoad L A i j).length = L := by simp [simdLoad]

theorem zerov_length (L : Nat) : (zerov L).length = L := by simp [zerov]

theorem zerov_sum (L : Nat) : (zerov L).sum = 0 := by simp [zerov]

theorem addv_length (x y : List Int) :
    (addv x y).length = min x.length y.length := by simp [addv]

theorem addv_length_same {x y : List Int} {L : Nat}
    (hx : x.length = L) (hy : y.length = L) : (addv x y).length = L := by
  rw [addv_length, hx, hy, Nat.min_self]

theorem addv_sum : ∀ (x y : List Int), x.length = y.length →
    (addv x y).sum = x.sum + y.sum := by
  intro x
  induction x with
  | nil =>
    intro y h
    cases y with
    | nil => simp [addv]
    | cons b ys => simp at h
  | cons a xs ih =>
    intro y h
    cases y with
    | nil => simp at h
    | cons b ys =>
      simp only [addv, List.zipWith_cons_cons, List.sum_cons] at *
      rw [ih ys (by simpa using h)]
      ring

theorem sum_map_range (f : Nat → Int) : ∀ n : Nat,
    ((List.range n).map f).sum = ∑ k ∈ Finset.range n, f k := by
  intro n
  induction n with
  | zero => simp
  | succ m ih => rw [List.range_succ, Finset.sum_range_succ]; simp [ih]

theorem simdLoad_sum (L : Nat) (A : DMat Int) (i j : Nat) :
    (simdLoad L A i j).sum = rowIco A i j (j + L) := by
  rw [simdLoad, sum_map_range, rowIco, Finset.sum_Ico_eq_sum_range]
  simp

theorem rowIco_split (A : DMat Int) (i : Nat) {a b c : Nat}
    (hab : a ≤ b) (hbc : b ≤ c) :
    rowIco A i a c = rowIco A i a b + rowIco A i b c := by
  rw [rowIco, rowIco, rowIco, Finset.sum_Ico_consecutive _ hab hbc]

theorem rowIco_zero_of_pad (A : DMat Int)
    (hpad : ∀ a b, A.cols ≤ b → A.entry a b = 0) (i a b : Nat)
    (ha : A.cols ≤ a) : rowIco A i a b = 0 := by
  rw [rowIco]
  refine Finset.sum_eq_zero (fun j hj => hpad i j ?_)
  rw [Finset.mem_Ico] at hj
  omega

theorem blockSum_add (A : DMat Int) (i n : Nat) :
    blockSum A i (i + n) = ∑ k ∈ Finset.range n, rowIco A (i + k) 0 A.cols := by
  rw [blockSum, Finset.sum_Ico_eq_sum_range]
  simp

theorem addChunkLoop1_spec (L : Nat) (A : DMat Int) (i jpos : Nat) (hL : 0 < L) :
    ∀ (k j : Nat) (x : List Int), jpos ≤ j + k → x.length = L →
      (addChunkLoop1 L A i jpos j x).1.length = L ∧
      j ≤ (addChunkLoop1 L A i jpos j x).2 ∧
      jpos ≤ (addChunkLoop1 L A i jpos j x).2 ∧
      (L ∣ j → L ∣ jpos → j ≤ jpos → (addChunkLoop1 L A i jpos j x).2 = jpos) ∧
      (addChunkLoop1 L A i jpos j x).1.sum =
        x.sum + rowIco A i j (addChunkLoop1 L A i jpos j x).2 := by
  intro k
  induction k with
  | zero =>
    intro j x hk hx
    rw [addChunkLoop1, dif_neg (by omega)]
    refine ⟨hx, le_refl j, by omega, fun _ _ h => by omega, ?_⟩
    rw [rowIco, Finset.Ico_self, Finset.sum_empty]
    ring
  | succ m ih =>
    intro j x hk hx
    rw [addChunkLoop1]
    by_cases hjp : j < jpos
    · rw [dif_pos ⟨hjp, hL⟩]
      have hx' : (addv x (simdLoad L A i j)).length = L :=
        addv_length_same hx (simdLoad_length L A i j)
      obtain ⟨h1, h2, h3, h4, h5⟩ := ih (j + L) (addv x (simdLoad L A i j))
        (by omega) hx'
      refine ⟨h1, by omega, h3, ?_, ?_⟩
      · intro d1 d2 _
        have hd : L ∣ jpos - j := Nat.dvd_sub' d2 d1
        have hld : L ≤ jpos - j := Nat.le_of_dvd (by omega) hd
        exact h4 (Nat.dvd_add d1 (Nat.dvd_refl L)) d2 (by omega)
      · rw [h5, addv_sum x _ (by rw [hx, simdLoad_length]), simdLoad_sum,
          rowIco_split A i (show j ≤ j + L by omega) h2]
        ring
    · rw [dif_neg (by omega)]
      refine ⟨hx, le_refl j, by omega, fun _ _ h => by omega, ?_⟩
      rw [rowIco, Finset.Ico_self, Finset.sum_empty]
      ring

theorem addChunkLoop2_spec (L : Nat) (A : DMat Int) (i jpos : Nat) (hL : 0 < L) :
    ∀ (k j : Nat) (x1 x2 : List Int), jpos ≤ j + k →
      x1.length = L → x2.length = L →
      (addChunkLoop2 L A i jpos j x1 x2).x1.length = L ∧
      (addChunkLoop2 L A i jpos j x1 x2).x2.length = L ∧
      j ≤ (addChunkLoop2 L A i jpos j x1 x2).j ∧
      jpos ≤ (addChunkLoop2 L A i jpos j x1 x2).j ∧
      (L ∣ j → L ∣ jpos → j ≤ jpos → (addChunkLoop2 L A i jpos j x1 x2).j = jpos) ∧
      (addChunkLoop2 L A i jpos j x1 x2).x1.sum =
        x1.sum + rowIco A i j (addChunkLoop2 L A i jpos j x1 x2).j ∧
      (addChunkLoop2 L A i jpos j x1 x2).x2.sum =
        x2.sum + rowIco A (i + 1) j (addChunkLoop2 L A i jpos j x1 x2).j := by
  intro k
  induction k with
  | zero =>
    intro j x1 x2 hk hx1 hx2
    rw [addChunkLoop2, dif_neg (by omega)]
    simp only []
    refine ⟨hx1, hx2, le_refl j, by omega, fun _ _ h => by omega, ?_, ?_⟩ <;>
      · rw [rowIco, Finset.Ico_self, Finset.sum_empty]
        ring
  | succ m ih =>
    intro j x1 x2 hk hx1 hx2
    rw [addChunkLoop2]
    by_cases hjp : j < jpos
    · rw [dif_pos ⟨hjp, hL⟩]
      obtain ⟨h1, h2, h3, h4, h5, h6, h7⟩ := ih (j + L)
        (addv x1 (simdLoad L A i j)) (addv x2 (simdLoad L A (i + 1) j))
        (by omega)
        (addv_length_same hx1 (simdLoad_length L A i j))
        (addv_length_same hx2 (simdLoad_length L A (i + 1) j))
      refine ⟨h1, h2, by omega, h4, ?_, ?_, ?_⟩
      · intro d1 d2 _
        have hd : L ∣ jpos - j := Nat.dvd_sub' d2 d1
        have hld : L ≤ jpos - j := Nat.le_of_dvd (by omega) hd
        exact h5 (Nat.dvd_add d1 (Nat.dvd_refl L)) d2 (by omega)
      · rw [h6, addv_sum x1 _ (by rw [hx1, simdLoad_length]), simdLoad_sum,
          rowIco_split A i (show j ≤ j + L by omega) h3]
        ring
      · rw [h7, addv_sum x2 _ (by rw [hx2, simdLoad_length]), simdLoad_sum,
          rowIco_split A (i + 1) (show j ≤ j + L by omega) h3]
        ring
    · rw [dif_neg (by omega)]
      simp only []
      refine ⟨hx1, hx2, le_refl j, by omega, fun _ _ h => by omega, ?_, ?_⟩ <;>
      · rw [rowIco, Finset.Ico_self, Finset.sum_empty]
        ring

theorem addChunkLoop4_spec (L : Nat) (A : DMat Int) (i jpos : Nat) (hL : 0 < L) :
    ∀ (k j : Nat) (x1 x2 x3 x4 : List Int), jpos ≤ j + k →
      x1.length = L → x2.length = L → x3.length = L → x4.length = L →
      (addChunkLoop4 L A i jpos j x1 x2 x3 x4).x1.length = L ∧
      (addChunkLoop4 L A i jpos j x1 x2 x3 x4).x2.length = L ∧
      (addChunkLoop4 L A i jpos j x1 x2 x3 x4).x3.length = L ∧
      (addChunkLoop4 L A i jpos j x1 x2 x3 x4).x4.length = L ∧
      j ≤ (addChunkLoop4 L A i jpos j x1 x2 x3 x4).j ∧
      jpos ≤ (addChunkLoop4 L A i jpos j x1 x2 x3 x4).j ∧
      (L ∣ j → L ∣ jpos → j ≤ jpos →
        (addChunkLoop4 L A i jpos j x1 x2 x3 x4).j = jpos) ∧
      (addChunkLoop4 L A i jpos j x1 x2 x3 x4).x1.sum =
        x1.sum + rowIco A i j (addChunkLoop4 L A i jpos j x1 x2 x3 x4).j ∧
      (addChunkLoop4 L A i jpos j x1 x2 x3 x4).x2.sum =
        x2.sum + rowIco A (i + 1) j (addChunkLoop4 L A i jpos j x1 x2 x3 x4).j ∧
      (addChunkLoop4 L A i jpos j x1 x2 x3 x4).x3.sum =
        x3.sum + rowIco A (i + 2) j (addChunkLoop4 L A i jpos j x1 x2 x3 x4).j ∧
      (addChunkLoop4 L A i jpos j x1 x2 x3 x4).x4.sum =
        x4.sum + rowIco A (i + 3) j (addChunkLoop4 L A i jpos j x1 x2 x3 x4).j := by
  intro k
  induction k with
  | zero =>
    intro j x1 x2 x3 x4 hk hx1 hx2 hx3 hx4
    rw [addChunkLoop4, dif_neg (by omega)]
    simp only []
    refine ⟨hx1, hx2, hx3, hx4, le_refl j, by omega, fun _ _ h => by omega,
      ?_, ?_, ?_, ?_⟩ <;>
      · rw [rowIco, Finset.Ico_self, Finset.sum_empty]
        ring
  | succ m ih =>
    intro j x1 x2 x3 x4 hk hx1 hx2 hx3 hx4
    rw [addChunkLoop4]
    by_cases hjp : j < jpos
    · rw [dif_pos ⟨hjp, hL⟩]
      obtain ⟨h1, h2, h3, h4, h5, h6, h7, h8, h9, h10, h11⟩ := ih (j + L)
        (addv x1 (simdLoad L A i j)) (addv x2 (simdLoad L A (i + 1) j))
        (addv x3 (simdLoad L A (i + 2) j)) (addv x4 (simdLoad L A (i + 3) j))
        (by omega)
        (addv_length_same hx1 (simdLoad_length L A i j))
        (addv_length_same hx2 (simdLoad_length L A (i + 1) j))
        (addv_length_same hx3 (simdLoad_length L A (i + 2) j))
        (addv_length_same hx4 (simdLoad_length L A (i + 3) j))
      refine ⟨h1, h2, h3, h4, by omega, h6, ?_, ?_, ?_, ?_, ?_⟩
      · intro d1 d2 _
        have hd : L ∣ jpos - j := Nat.dvd_sub' d2 d1
        have hld : L ≤ jpos - j := Nat.le_of_dvd (by omega) hd
        exact h7 (Nat.dvd_add d1 (Nat.dvd_refl L)) d2 (by omega)
      · rw [h8, addv_sum x1 _ (by rw [hx1, simdLoad_length]), simdLoad_sum,
          rowIco_split A i (show j ≤ j + L by omega) h5]
        ring
      · rw [h9, addv_sum x2 _ (by rw [hx2, simdLoad_length]), simdLoad_sum,
          rowIco_split A (i + 1) (show j ≤ j + L by omega) h5]
        ring
      · rw [h10, addv_sum x3 _ (by rw [hx3, simdLoad_length]), simdLoad_sum,
          rowIco_split A (i + 2) (show j ≤ j + L by omega) h5]
        ring
      · rw [h11, addv_sum x4 _ (by rw [hx4, simdLoad_length]), simdLoad_sum,
          rowIco_split A (i + 3) (show j ≤ j + L by omega) h5]
        ring
    · rw [dif_neg (by omega)]
      simp only []
      refine ⟨hx1, hx2, hx3, hx4, le_refl j, by omega, fun _ _ h => by omega,
        ?_, ?_, ?_, ?_⟩ <;>
      · rw [rowIco, Finset.Ico_self, Finset.sum_empty]
        ring

theorem addTail1_true (A : DMat Int) (i j : Nat) (redux : Int) :
    addTail1 A true i j redux = redux + rowIco A i j A.cols := by
  rw [addTail1, if_pos rfl, foldl_add_range']
  by_cases hj : j ≤ A.cols
  · rw [show j + (A.cols - j) = A.cols by omega, rowIco]
  · have h1 : Finset.Ico j (j + (A.cols - j)) = ∅ := Finset.Ico_eq_empty (by omega)
    have h2 : Finset.Ico j A.cols = ∅ := Finset.Ico_eq_empty (by omega)
    rw [rowIco, h1, h2]

theorem addTail2_true (A : DMat Int) (i j : Nat) (redux : Int) :
    addTail2 A true i j redux =
      redux + (rowIco A i j A.cols + rowIco A (i + 1) j A.cols) := by
  rw [addTail2, if_pos rfl]
  have hbody : (fun (r : Int) jj => r + A.entry i jj + A.entry (i + 1) jj) =
      fun r jj => r + (A.entry i jj + A.entry (i + 1) jj) := by
    funext r jj
    ring
  rw [hbody, foldl_add_range', Finset.sum_add_distrib]
  by_cases hj : j ≤ A.cols
  · rw [show j + (A.cols - j) = A.cols by omega, rowIco, rowIco]
  · have h1 : Finset.Ico j (j + (A.cols - j)) = ∅ := Finset.Ico_eq_empty (by omega)
    have h2 : Finset.Ico j A.cols = ∅ := Finset.Ico_eq_empty (by omega)
    rw [rowIco, rowIco, h1, h2]

theorem addTail4_true (A : DMat Int) (i j : Nat) (redux : Int) :
    addTail4 A true i j redux =
      redux + (rowIco A i j A.cols + rowIco A (i + 1) j A.cols +
        rowIco A (i + 2) j A.cols + rowIco A (i + 3) j A.cols) := by
  rw [addTail4, if_pos rfl]
  have hbody : (fun (r : Int) jj => r + A.entry i jj + A.entry (i + 1) jj +
      A.entry (i + 2) jj + A.entry (i + 3) jj) =
      fun r jj => r + (A.entry i jj + A.entry (i + 1) jj +
        A.entry (i + 2) jj + A.entry (i + 3) jj) := by
    funext r jj
    ring
  rw [hbody, foldl_add_range', Finset.sum_add_distrib, Finset.sum_add_distrib,
    Finset.sum_add_distrib]
  by_cases hj : j ≤ A.cols
  · rw [show j + (A.cols - j) = A.cols by omega, rowIco, rowIco, rowIco, rowIco]
  · have h1 : Finset.Ico j (j + (A.cols - j)) = ∅ := Finset.Ico_eq_empty (by omega)
    have h2 : Finset.Ico j A.cols = ∅ := Finset.Ico_eq_empty (by omega)
    rw [rowIco, rowIco, rowIco, rowIco, h1, h2]

theorem row_coverage (A : DMat Int) (L jpos : Nat) (remainder : Bool) (_hL : 0 < L)
    (hrem : remainder = true → L ∣ jpos ∧ L ≤ jpos ∧ jpos ≤ A.cols)
    (hpad : remainder = false → jpos = A.cols ∧
      ∀ a b, A.cols ≤ b → A.entry a b = 0)
    (r jf : Nat) (hjf : jpos ≤ jf)
    (hdiv : remainder = true → jf = jpos) :
    rowIco A r 0 jf + (if remainder then rowIco A r jf A.cols else 0) =
      rowIco A r 0 A.cols := by
  cases remainder
  · obtain ⟨hjn, hp⟩ := hpad rfl
    rw [if_neg (by simp),
      rowIco_split A r (show 0 ≤ A.cols by omega) (show A.cols ≤ jf by omega),
      rowIco_zero_of_pad A hp r A.cols jf (le_refl _)]
    ring
  · obtain ⟨_, _, h3⟩ := hrem rfl
    rw [if_pos rfl, hdiv rfl, ← rowIco_split A r (by omega) h3]

theorem blockSum_four (A : DMat Int) (i : Nat) :
    blockSum A i (i + 4) = rowIco A i 0 A.cols + rowIco A (i + 1) 0 A.cols +
      rowIco A (i + 2) 0 A.cols + rowIco A (i + 3) 0 A.cols := by
  rw [blockSum_add]
  simp only [Finset.sum_range_succ, Finset.sum_range_zero, Nat.add_zero, zero_add]

theorem addRows4_spec (L : Nat) (A : DMat Int) (jpos : Nat) (remainder : Bool)
    (hL : 0 < L)
    (hrem : remainder = true → L ∣ jpos ∧ L ≤ jpos ∧ jpos ≤ A.cols)
    (hpad : remainder = false → jpos = A.cols ∧
      ∀ a b, A.cols ≤ b → A.entry a b = 0) :
    ∀ (k i : Nat) (x1 : List Int) (redux : Int),
      A.rows ≤ i + k → i ≤ A.rows → x1.length = L →
      (addRows4 L A jpos remainder i x1 redux).1.length = L ∧
      i ≤ (addRows4 L A jpos remainder i x1 redux).2.2 ∧
      (addRows4 L A jpos remainder i x1 redux).2.2 ≤ A.rows ∧
      A.rows < (addRows4 L A jpos remainder i x1 redux).2.2 + 4 ∧
      (addRows4 L A jpos remainder i x1 redux).1.sum +
          (addRows4 L A jpos remainder i x1 redux).2.1 =
        x1.sum + redux + blockSum A i (addRows4 L A jpos remainder i x1 redux).2.2 := by
  intro k
  induction k with
  | zero =>
    intro i x1 redux hk hiM hx
    rw [addRows4, dif_neg (by omega)]
    simp only []
    refine ⟨hx, le_refl i, hiM, by omega, ?_⟩
    rw [blockSum, Finset.Ico_self, Finset.sum_empty]
    ring
  | succ m ih =>
    intro i x1 redux hk hiM hx
    rw [addRows4]
    by_cases hi4 : i + 4 ≤ A.rows
    · rw [dif_pos hi4]
      simp only []
      set C := addChunkLoop4 L A i jpos L (addv x1 (simdLoad L A i 0))
        (simdLoad L A (i + 1) 0) (simdLoad L A (i + 2) 0)
        (simdLoad L A (i + 3) 0) with hC
      obtain ⟨c1, c2, c3, c4, cj1, cj2, cj3, s1, s2, s3, s4⟩ :=
        addChunkLoop4_spec L A i jpos hL jpos L
          (addv x1 (simdLoad L A i 0)) (simdLoad L A (i + 1) 0)
          (simdLoad L A (i + 2) 0) (simdLoad L A (i + 3) 0)
          (by omega)
          (addv_length_same hx (simdLoad_length L A i 0))
          (simdLoad_length L A (i + 1) 0) (simdLoad_length L A (i + 2) 0)
          (simdLoad_length L A (i + 3) 0)
      rw [← hC] at c1 c2 c3 c4 cj1 cj2 cj3 s1 s2 s3 s4
      obtain ⟨g1, g2, g3, g4, g5⟩ := ih (i + 4)
        (addv (addv C.x1 C.x2) (addv C.x3 C.x4))
        (addTail4 A remainder i C.j redux) (by omega) (by omega)
        (addv_length_same (addv_length_same c1 c2) (addv_length_same c3 c4))
      refine ⟨g1, by omega, g3, g4, ?_⟩
      rw [g5]
      have hdiv : remainder = true → C.j = jpos := fun h =>
        cj3 (Nat.dvd_refl L) (hrem h).1 (hrem h).2.1
      have hcov : ∀ r, rowIco A r 0 C.j +
          (if remainder then rowIco A r C.j A.cols else 0) =
            rowIco A r 0 A.cols :=
        fun r => row_coverage A L jpos remainder hL hrem hpad r C.j cj2 hdiv
      have hx'sum : (addv (addv C.x1 C.x2) (addv C.x3 C.x4)).sum =
          C.x1.sum + C.x2.sum + C.x3.sum + C.x4.sum := by
        rw [addv_sum _ _ (by rw [addv_length_same c1 c2, addv_length_same c3 c4]),
          addv_sum _ _ (by rw [c1, c2]), addv_sum _ _ (by rw [c3, c4])]
        ring
      have hload : ∀ r, (simdLoad L A r 0).sum = rowIco A r 0 L := by
        intro r
        rw [simdLoad_sum]
        norm_num
      have hsplit : ∀ r, rowIco A r 0 L + rowIco A r L C.j = rowIco A r 0 C.j :=
        fun r => (rowIco_split A r (show 0 ≤ L by omega) cj1).symm
      have hbs : blockSum A i (addRows4 L A jpos remainder (i + 4)
          (addv (addv C.x1 C.x2) (addv C.x3 C.x4))
          (addTail4 A remainder i C.j redux)).2.2 =
          blockSum A i (i + 4) + blockSum A (i + 4) _ :=
        blockSum_split A (by omega) g2
      rw [hbs, blockSum_four, hx'sum, s1, s2, s3, s4,
        addv_sum x1 _ (by rw [hx, simdLoad_length]), hload, hload, hload, hload]
      cases remainder
      · have ht : addTail4 A false i C.j redux = redux := rfl
        rw [ht]
        have hc0 := hcov i
        have hc1 := hcov (i + 1)
        have hc2 := hcov (i + 2)
        have hc3 := hcov (i + 3)
        rw [if_neg (by simp)] at hc0 hc1 hc2 hc3
        have hs0 := hsplit i
        have hs1 := hsplit (i + 1)
        have hs2 := hsplit (i + 2)
        have hs3 := hsplit (i + 3)
        omega
      · rw [addTail4_true]
        have hc0 := hcov i
        have hc1 := hcov (i + 1)
        have hc2 := hcov (i + 2)
        have hc3 := hcov (i + 3)
        rw [if_pos rfl] at hc0 hc1 hc2 hc3
        have hs0 := hsplit i
        have hs1 := hsplit (i + 1)
        have hs2 := hsplit (i + 2)
        have hs3 := hsplit (i + 3)
        omega
    · rw [dif_neg (by omega)]
      simp only []
      refine ⟨hx, le_refl i, hiM, by omega, ?_⟩
      rw [blockSum, Finset.Ico_self, Finset.sum_empty]
      ring

theorem dmatreduceAdd_eq_specSum (L : Nat) (remainder : Bool) (A : DMat Int)
    (hL : 0 < L)
    (hpad : remainder = false → ∀ a b, A.cols ≤ b → A.entry a b = 0) :
    dmatreduceAdd L remainder A = specSum A := by
  by_cases h0 : A.rows = 0 ∨ A.cols = 0
  · rw [dmatreduceAdd, if_pos h0, specSum]
    rcases h0 with h | h <;> simp [h]
  · push_neg at h0
    have hM : 0 < A.rows := Nat.pos_of_ne_zero h0.1
    have hN : 0 < A.cols := Nat.pos_of_ne_zero h0.2
    by_cases hbr : remainder = false ∨ L ≤ A.cols
    · rw [dmatreduceAdd, if_neg (by omega), if_pos hbr]
      simp only []
      set jpos := if remainder then A.cols - A.cols % L else A.cols with hjpos
      have hremF : remainder = true → L ∣ jpos ∧ L ≤ jpos ∧ jpos ≤ A.cols := by
        intro hr
        have hNL : L ≤ A.cols := by
          rcases hbr with h | h
          · rw [hr] at h
            exact absurd h (by simp)
          · exact h
        have hdm := Nat.div_add_mod A.cols L
        have hmod : A.cols % L < L := Nat.mod_lt _ hL
        have hq : 1 ≤ A.cols / L := (Nat.one_le_div_iff hL).mpr hNL
        have hmul : L * 1 ≤ L * (A.cols / L) := Nat.mul_le_mul_left L hq
        have hj : jpos = A.cols - A.cols % L := by
          rw [hjpos, hr]
          simp
        refine ⟨⟨A.cols / L, by omega⟩, by omega, by omega⟩
      have hpadF : remainder = false → jpos = A.cols ∧
          ∀ a b, A.cols ≤ b → A.entry a b = 0 := by
        intro hr
        refine ⟨?_, hpad hr⟩
        rw [hjpos, hr]
        simp
      set R4 := addRows4 L A jpos remainder 0 (zerov L) 0 with hR4
      obtain ⟨r1len, r1le, r1M, r1lt, r1sum⟩ :=
        addRows4_spec L A jpos remainder hL hremF hpadF A.rows 0 (zerov L) 0
          (by omega) (by omega) (zerov_length L)
      rw [← hR4] at r1len r1le r1M r1lt r1sum
      rw [zerov_sum] at r1sum
      set R2 := (if R4.2.2 + 2 ≤ A.rows then
          (addv (addChunkLoop2 L A R4.2.2 jpos L
              (addv R4.1 (simdLoad L A R4.2.2 0)) (simdLoad L A (R4.2.2 + 1) 0)).x1
            (addChunkLoop2 L A R4.2.2 jpos L
              (addv R4.1 (simdLoad L A R4.2.2 0)) (simdLoad L A (R4.2.2 + 1) 0)).x2,
           addTail2 A remainder R4.2.2
             (addChunkLoop2 L A R4.2.2 jpos L
               (addv R4.1 (simdLoad L A R4.2.2 0)) (simdLoad L A (R4.2.2 + 1) 0)).j
             R4.2.1,
           R4.2.2 + 2)
        else R4) with hR2
      have hR2facts : R2.1.length = L ∧ R2.2.2 ≤ A.rows ∧ A.rows < R2.2.2 + 2 ∧
          R2.1.sum + R2.2.1 = blockSum A 0 R2.2.2 := by
        rw [hR2]
        by_cases h2 : R4.2.2 + 2 ≤ A.rows
        · rw [if_pos h2]
          simp only []
          set C2 := addChunkLoop2 L A R4.2.2 jpos L
            (addv R4.1 (simdLoad L A R4.2.2 0)) (simdLoad L A (R4.2.2 + 1) 0) with hC2
          obtain ⟨c1, c2, cj1, cj2, cj3, s1, s2⟩ :=
            addChunkLoop2_spec L A R4.2.2 jpos hL jpos L
              (addv R4.1 (simdLoad L A R4.2.2 0)) (simdLoad L A (R4.2.2 + 1) 0)
              (by omega)
              (addv_length_same r1len (simdLoad_length L A R4.2.2 0))
              (simdLoad_length L A (R4.2.2 + 1) 0)
          rw [← hC2] at c1 c2 cj1 cj2 cj3 s1 s2
          have hdiv : remainder = true → C2.j = jpos := fun h =>
            cj3 (Nat.dvd_refl L) (hremF h).1 (hremF h).2.1
          have hc0 := row_coverage A L jpos remainder hL hremF hpadF R4.2.2 C2.j cj2 hdiv
          have hc1 := row_coverage A L jpos remainder hL hremF hpadF (R4.2.2 + 1) C2.j cj2 hdiv
          refine ⟨addv_length_same c1 c2, by omega, by omega, ?_⟩
          have hsum12 : (addv C2.x1 C2.x2).sum = C2.x1.sum + C2.x2.sum :=
            addv_sum _ _ (by rw [c1, c2])
          have hload : ∀ r, (simdLoad L A r 0).sum = rowIco A r 0 L := by
            intro r
            rw [simdLoad_sum]
            norm_num
          have hsplit : ∀ r, rowIco A r 0 L + rowIco A r L C2.j = rowIco A r 0 C2.j :=
            fun r => (rowIco_split A r (show 0 ≤ L by omega) cj1).symm
          have hbs : blockSum A 0 (R4.2.2 + 2) =
              blockSum A 0 R4.2.2 + blockSum A R4.2.2 (R4.2.2 + 2) :=
            blockSum_split A (by omega) (by omega)
          rw [hsum12, s1, s2, addv_sum R4.1 _ (by rw [r1len, simdLoad_length]),
            hload, hload, hbs, blockSum_pair]
          have hs0 := hsplit R4.2.2
          have hs1 := hsplit (R4.2.2 + 1)
          cases remainder
          · have ht : addTail2 A false R4.2.2 C2.j R4.2.1 = R4.2.1 := rfl
            rw [ht]
            rw [if_neg (by simp)] at hc0 hc1
            omega
          · rw [addTail2_true]
            rw [if_pos rfl] at hc0 hc1
            omega
        · rw [if_neg h2]
          exact ⟨r1len, r1M, by omega, by omega⟩
      obtain ⟨f1, f2, f3, f4⟩ := hR2facts
      rw [specSum_eq_blockSum]
      by_cases h1 : R2.2.2 < A.rows
      · rw [if_pos h1]
        simp only []
        set C1 := addChunkLoop1 L A R2.2.2 jpos L
          (addv R2.1 (simdLoad L A R2.2.2 0)) with hC1
        obtain ⟨d1, d2, d3, d4, d5⟩ :=
          addChunkLoop1_spec L A R2.2.2 jpos hL jpos L
            (addv R2.1 (simdLoad L A R2.2.2 0)) (by omega)
            (addv_length_same f1 (simdLoad_length L A R2.2.2 0))
        rw [← hC1] at d1 d2 d3 d4 d5
        have hdiv : remainder = true → C1.2 = jpos := fun h =>
          d4 (Nat.dvd_refl L) (hremF h).1 (hremF h).2.1
        have hc0 := row_coverage A L jpos remainder hL hremF hpadF R2.2.2 C1.2 d3 hdiv
        have hload : (simdLoad L A R2.2.2 0).sum = rowIco A R2.2.2 0 L := by
          rw [simdLoad_sum]
          norm_num
        have hsplit : rowIco A R2.2.2 0 L + rowIco A R2.2.2 L C1.2 =
            rowIco A R2.2.2 0 C1.2 :=
          (rowIco_split A R2.2.2 (show 0 ≤ L by omega) d2).symm
        have hMform : A.rows = R2.2.2 + 1 := by omega
        have hbs : blockSum A 0 (R2.2.2 + 1) =
            blockSum A 0 R2.2.2 + blockSum A R2.2.2 (R2.2.2 + 1) :=
          blockSum_split A (by omega) (by omega)
        rw [hMform, hbs, blockSum_single, d5,
          addv_sum R2.1 _ (by rw [f1, simdLoad_length]), hload]
        cases remainder
        · have ht : addTail1 A false R2.2.2 C1.2 R2.2.1 = R2.2.1 := rfl
          rw [ht]
          rw [if_neg (by simp)] at hc0
          omega
        · rw [addTail1_true]
          rw [if_pos rfl] at hc0
          omega
      · rw [if_neg h1]
        simp only []
        have hMform : R2.2.2 = A.rows := by omega
        rw [← hMform]
        omega
    · rw [dmatreduceAdd, if_neg (by omega), if_neg hbr]
      have hnn := naiveSum_eq_specSum A
      rw [naiveSum] at hnn
      exact hnn

end SimdLemmas

section AssignLemmas

theorem zipWith_map_same {β γ : Type} (op : γ → γ → γ) (f g : β → γ) :
    ∀ l : List β,
      List.zipWith op (l.map f) (l.map g) = l.map (fun x => op (f x) (g x)) := by
  intro l
  induction l with
  | nil => rfl
  | cons a t ih => simp only [List.map_cons, List.zipWith_cons_cons, ih]

theorem zipWith_add_assoc : ∀ (a b c : List Int),
    List.zipWith (· + ·) (List.zipWith (· + ·) a b) c =
      List.zipWith (· + ·) a (List.zipWith (· + ·) b c) := by
  intro a
  induction a with
  | nil => intro b c; rfl
  | cons x xs ih =>
    intro b c
    cases b with
    | nil => rfl
    | cons y ys =>
      cases c with
      | nil => rfl
      | cons z zs => simp only [List.zipWith_cons_cons, ih, add_assoc]

theorem zipWith_add_replicate_zero : ∀ (lhs : List Int) (n : Nat),
    lhs.length = n → List.zipWith (· + ·) lhs (List.replicate n 0) = lhs := by
  intro lhs
  induction lhs with
  | nil => intro n h; simp
  | cons a t ih =>
    intro n h
    cases n with
    | zero => simp at h
    | succ m =>
      simp only [List.replicate_succ, List.zipWith_cons_cons, add_zero]
      rw [ih m (by simpa using h)]

theorem map_range_zero (n : Nat) :
    (List.range n).map (fun _ => (0 : Int)) = List.replicate n 0 := by
  induction n with
  | zero => rfl
  | succ m ih => rw [List.range_succ, List.map_append, ih, List.replicate_succ']; rfl

theorem rowVec_as_map (A : DMat Int) (i : Nat) :
    rowVec A i = (List.range A.cols).map (fun j => A.entry i j) := rfl

theorem colSumsVec_zero (A : DMat Int) (h : A.rows = 0) :
    colSumsVec A = resetVec A.cols := by
  rw [colSumsVec, resetVec, h]
  simp only [Finset.range_zero, Finset.sum_empty]
  exact map_range_zero A.cols

theorem assignColwise_add_eq_colSums (A : DMat Int) :
    assignColwise (· + ·) A = colSumsVec A := by
  rw [assignColwise]
  by_cases h : A.rows = 0
  · rw [if_pos h, colSumsVec_zero A h]
  · rw [if_neg h]
    have key : ∀ (m s : Nat),
        (List.range' s m).foldl (fun lhs i => List.zipWith (· + ·) lhs (rowVec A i))
          ((List.range A.cols).map (fun j => ∑ i ∈ Finset.range s, A.entry i j)) =
        (List.range A.cols).map
          (fun j => ∑ i ∈ Finset.range (s + m), A.entry i j) := by
      intro m
      induction m with
      | zero => intro s; simp
      | succ t ih =>
        intro s
        rw [List.range'_succ, List.foldl_cons]
        have hstep : List.zipWith (· + ·)
            ((List.range A.cols).map (fun j => ∑ i ∈ Finset.range s, A.entry i j))
            (rowVec A s) =
            (List.range A.cols).map
              (fun j => ∑ i ∈ Finset.range (s + 1), A.entry i j) := by
          rw [rowVec_as_map, zipWith_map_same]
          refine List.map_congr_left (fun j _ => ?_)
          rw [Finset.sum_range_succ]
        rw [hstep, ih (s + 1)]
        have harith : s + 1 + t = s + (t + 1) := by omega
        rw [harith]
    have h0 : rowVec A 0 =
        (List.range A.cols).map (fun j => ∑ i ∈ Finset.range 1, A.entry i j) := by
      rw [rowVec_as_map]
      refine List.map_congr_left (fun j _ => ?_)
      rw [Finset.sum_range_one]
    rw [h0, key (A.rows - 1) 1]
    have harith : 1 + (A.rows - 1) = A.rows := by omega
    rw [harith, colSumsVec]

theorem addAssign_incremental_eq (A : DMat Int) :
    ∀ (m : Nat) (lhs : List Int), lhs.length = A.cols →
      (List.range m).foldl (fun l i => List.zipWith (· + ·) l (rowVec A i)) lhs =
        List.zipWith (· + ·) lhs
          ((List.range A.cols).map (fun j => ∑ i ∈ Finset.range m, A.entry i j)) := by
  intro m
  induction m with
  | zero =>
    intro lhs h
    simp only [List.range_zero, List.foldl_nil, Finset.range_zero, Finset.sum_empty]
    rw [map_range_zero, zipWith_add_replicate_zero lhs _ h]
  | succ t ih =>
    intro lhs h
    rw [List.range_succ, List.foldl_append, ih lhs h]
    simp only [List.foldl_cons, List.foldl_nil]
    rw [rowVec_as_map, zipWith_add_assoc, zipWith_map_same]
    congr 1
    refine List.map_congr_left (fun j _ => ?_)
    rw [Finset.sum_range_succ]

end AssignLemmas

/-- C1. The element of the column-wise reduction expression at a valid
index `j` is the reduction of column `j` of the operand, and the element
of the row-wise reduction expression at a valid index `i` is the
reduction of row `i`. -/
theorem reduceExpr_elem_is_slice_reduction (dflt : α) (op : α → α → α) (A : DMat α) :
    (∀ j, j < A.cols →
      reduceExpr0Elem dflt op A j =
        specReduceSeq dflt op A.rows (fun i => A.entry i j)) ∧
    (∀ i, i < A.rows →
      reduceExpr1Elem dflt op A i =
        specReduceSeq dflt op A.cols (fun j => A.entry i j)) := by
  constructor
  · intro j _
    rw [reduceExpr0Elem, columnOf, dvecreduce_map_range]
  · intro i _
    rw [reduceExpr1Elem, rowOf, dvecreduce_map_range]

/-- Witness for C1 on a concrete 2x3 matrix and operation. -/
theorem reduceExpr_elem_is_slice_reduction_witness :
    reduceExpr0Elem 0 (· + ·) (DMat.mk 2 3 (fun i j => (3 * i + j : Int))) 1 =
      specReduceSeq 0 (· + ·) 2 (fun i => (3 * i + 1 : Int)) ∧
    reduceExpr1Elem 0 (· + ·) (DMat.mk 2 3 (fun i j => (3 * i + j : Int))) 1 =
      specReduceSeq 0 (· + ·) 3 (fun j => (3 * 1 + j : Int)) :=
  ⟨(reduceExpr_elem_is_slice_reduction 0 (· + ·)
      (DMat.mk 2 3 (fun i j => (3 * i + j : Int)))).1 1 (by decide),
   (reduceExpr_elem_is_slice_reduction 0 (· + ·)
      (DMat.mk 2 3 (fun i j => (3 * i + j : Int)))).2 1 (by decide)⟩

/-- C4. Checked access of either reduction expression fails exactly on
indices at or beyond `size()`, and below `size()` it returns the reduced
scalar of the subscript operator and never fails. -/
theorem reduceExpr_at_out_of_range_iff (dflt : α) (op : α → α → α) (A : DMat α) :
    (∀ i, reduceExpr0At dflt op A i = .error "Invalid vector access index" ↔
      A.cols ≤ i) ∧
    (∀ i, i < A.cols →
      reduceExpr0At dflt op A i = .ok (reduceExpr0Elem dflt op A i)) ∧
    (∀ i, reduceExpr1At dflt op A i = .error "Invalid vector access index" ↔
      A.rows ≤ i) ∧
    (∀ i, i < A.rows →
      reduceExpr1At dflt op A i = .ok (reduceExpr1Elem dflt op A i)) := by
  refine ⟨fun i => ?_, fun i hi => ?_, fun i => ?_, fun i hi => ?_⟩
  · rw [reduceExpr0At]
    split <;> simp_all
  · rw [reduceExpr0At, if_neg (by omega)]
  · rw [reduceExpr1At]
    split <;> simp_all
  · rw [reduceExpr1At, if_neg (by omega)]

/-- Witness for C4 on a concrete 2x3 matrix: the access at index 3 of
the column-wise expression (size 3) fails, the access at index 1
succeeds. -/
theorem reduceExpr_at_out_of_range_iff_witness :
    (reduceExpr0At 0 (· + ·) (DMat.mk 2 3 (fun i j => (3 * i + j : Int))) 3 =
      .error "Invalid vector access index" ↔ (3 : Nat) ≤ 3) ∧
    reduceExpr0At 0 (· + ·) (DMat.mk 2 3 (fun i j => (3 * i + j : Int))) 1 =
      .ok (reduceExpr0Elem 0 (· + ·) (DMat.mk 2 3 (fun i j => (3 * i + j : Int))) 1) :=
  ⟨(reduceExpr_at_out_of_range_iff 0 (· + ·)
      (DMat.mk 2 3 (fun i j => (3 * i + j : Int)))).1 3,
   (reduceExpr_at_out_of_range_iff 0 (· + ·)
      (DMat.mk 2 3 (fun i j => (3 * i + j : Int)))).2.1 1 (by decide)⟩

theorem specSum_trans (A : DMat Int) : specSum A.trans = specSum A := by
  rw [specSum, specSum]
  exact Finset.sum_comm

set_option maxRecDepth 8000 in
/-- C2. For every matrix with at least one row and one column, the
two-way unrolled scalar kernel with addition and the four-way unrolled
SIMD addition kernel (any positive SIMDSIZE, either padding mode)
return the value of the naive double-loop sum; on `[[1,2],[3,4]]` the
kernels give `sum = 10` (scalar and SIMD addition path) and `prod = 24`
(scalar and generic SIMD path). -/
theorem sum_kernels_eq_naive_double_loop :
    (∀ A : DMat Int, 1 ≤ A.rows → 1 ≤ A.cols →
      dmatreduceScalar 0 (· + ·) A = naiveSum A) ∧
    (∀ (A : DMat Int) (L : Nat) (remainder : Bool), 1 ≤ A.rows → 1 ≤ A.cols →
      0 < L → (remainder = false → ∀ a b, A.cols ≤ b → A.entry a b = 0) →
      dmatreduceAdd L remainder A = naiveSum A) ∧
    dmatreduceScalar 0 (· + ·)
      (DMat.mk 2 2 (fun i j => ((2 * i + j + 1 : Nat) : Int))) = 10 ∧
    dmatreduceAdd 2 true
      (DMat.mk 2 2 (fun i j => ((2 * i + j + 1 : Nat) : Int))) = 10 ∧
    dmatreduceScalar 0 (· * ·)
      (DMat.mk 2 2 (fun i j => ((2 * i + j + 1 : Nat) : Int))) = 24 ∧
    dmatreduceSIMD 2 (· * ·) true
      (DMat.mk 2 2 (fun i j => ((2 * i + j + 1 : Nat) : Int))) = 24 := by
  refine ⟨?_, ?_, ?_, ?_, ?_, ?_⟩
  · intro A _ _
    rw [dmatreduceScalar_add, naiveSum_eq_specSum]
  · intro A L remainder _ _ hL hpad
    rw [dmatreduceAdd_eq_specSum L remainder A hL hpad, naiveSum_eq_specSum]
  · rw [dmatreduceScalar_add]
    decide
  · rw [dmatreduceAdd_eq_specSum 2 true _ (by decide) (fun h => Bool.noConfusion h)]
    decide
  · simp +decide [dmatreduceScalar, scalarRows2, rowReduce, rowReducePair,
      List.range']
  · simp +decide [dmatreduceSIMD, genChunkLoop1, genChunkLoop2, genRows4,
      laneTail1, laneTail2, simdLoad, opv, List.range']

/-- Witness for C2: the general kernel equalities applied to concrete
matrices, one per kernel, with the padded no-remainder mode exercised
on the SIMD path. -/
theorem sum_kernels_eq_naive_double_loop_witness :
    dmatreduceScalar 0 (· + ·) (DMat.mk 1 3 (fun i j => ((i + 2 * j : Nat) : Int))) =
      naiveSum (DMat.mk 1 3 (fun i j => ((i + 2 * j : Nat) : Int))) ∧
    dmatreduceAdd 3 false
        (DMat.mk 1 3 (fun i j => if 3 ≤ j then 0 else ((i + 2 * j : Nat) : Int))) =
      naiveSum (DMat.mk 1 3 (fun i j => if 3 ≤ j then 0 else ((i + 2 * j : Nat) : Int))) :=
  ⟨sum_kernels_eq_naive_double_loop.1 _ (by decide) (by decide),
   sum_kernels_eq_naive_double_loop.2.1 _ 3 false (by decide) (by decide)
     (by decide) (fun _ a b hb => if_pos hb)⟩

set_option maxRecDepth 8000 in
/-- C3 counterexample: for the (commutative but non-associative)
operation `a*b + 1` on `[[1,2],[3,4]]`, the column-major total
reduction (delegated to the transpose and therefore folding the
columns first) differs from the row-major total reduction of the same
logical matrix: 37 versus 40. -/
theorem colMajor_reduce_differs_counterexample :
    dmatreduceCM 0 (fun a b => a * b + 1)
        (DMat.mk 2 2 (fun i j => ((2 * i + j + 1 : Nat) : Int))) ≠
      dmatreduceScalar 0 (fun a b => a * b + 1)
        (DMat.mk 2 2 (fun i j => ((2 * i + j + 1 : Nat) : Int))) := by
  simp +decide [dmatreduceCM, dmatreduceScalar, scalarRows2, rowReduce,
    rowReducePair, DMat.trans, List.range']

/-- C3 (amended). The column-major total reduction is delegated as the
row-major reduction of the transpose; the axis-wise reduction of a
column-major matrix agrees elementwise with the axis-wise reduction of
the row-major storage for every reduction operation (the flipped-axis
slices of the transpose are the same sequences); and the total
reductions of the two storages agree for the addition reduction. -/
theorem colMajor_reduction_delegation (dflt : α) (op : α → α → α) (A : DMat α) :
    dmatreduceCM dflt op A = dmatreduceScalar dflt op A.trans ∧
    (∀ RF k, reduceBackendCMElem RF dflt op A k =
      reduceBackendRMElem RF dflt op A k) ∧
    (∀ B : DMat Int, dmatreduceCM 0 (· + ·) B = dmatreduceScalar 0 (· + ·) B) := by
  refine ⟨rfl, ?_, ?_⟩
  · intro RF k
    by_cases h : RF = 0
    · rw [reduceBackendCMElem, reduceBackendRMElem, if_pos h, if_pos h]
      rfl
    · rw [reduceBackendCMElem, reduceBackendRMElem, if_neg h, if_neg h]
      rfl
  · intro B
    rw [dmatreduceCM, dmatreduceScalar_add, dmatreduceScalar_add, specSum_trans]

/-- C5 (intended behavior): dereferencing the offset iterator that
keeps the operand, as the spec requires, yields the subscript value of
the row-wise reduction expression. The source `operator+` and postfix
`operator++` construct the returned `ConstIterator` from the index
alone, dropping the operand and the operation, and therefore cannot
exhibit this behavior (the call does not compile). -/
theorem rowwise_iterator_offset_deref (dflt : α) (op : α → α → α) (A : DMat α)
    (n : Nat) :
    ConstIterator.deref dflt (iterAddSpec (reduceExpr1Begin op A) n) =
      reduceExpr1Elem dflt op A n := by
  simp [iterAddSpec, reduceExpr1Begin, ConstIterator.deref, reduceExpr1Elem]

set_option maxRecDepth 8000 in
/-- C6. A 1x1 matrix reduces to its sole element with the operation
never entering the result: the scalar backend returns the entry
directly for every element type and operation, and the generic
vectorized backend returns the entry for every SIMDSIZE, every
operation and both final-combine modes. -/
theorem one_by_one_reduction_returns_element :
    (∀ (β : Type) (dflt : β) (op : β → β → β) (A : DMat β),
      A.rows = 1 → A.cols = 1 → dmatreduceScalar dflt op A = A.entry 0 0) ∧
    (∀ (L : Nat) (op : Int → Int → Int) (isMult : Bool) (A : DMat Int),
      0 < L → A.rows = 1 → A.cols = 1 → dmatreduceSIMD L op isMult A = A.entry 0 0) := by
  constructor
  · intro β dflt op A h1 h2
    rw [dmatreduceScalar, if_neg (by omega), if_pos ⟨h1, h2⟩]
  · intro L op isMult A hL h1 h2
    rcases A with ⟨M, N, e⟩
    simp only [] at h1 h2
    subst h1
    subst h2
    by_cases hcase : L ≤ 1
    · have hL1 : L = 1 := by omega
      subst hL1
      cases isMult <;>
        simp +decide [dmatreduceSIMD, genChunkLoop1, genChunkLoop2, genRows4,
          laneTail1, laneTail2, simdLoad, opv, List.range', List.range_succ]
    · rw [dmatreduceSIMD, if_neg (by simp), if_neg (by simp only []; omega)]
      norm_num [List.range']

/-- Witness for C6: both kernels on the concrete 1x1 matrix `[[5]]`
with the non-trivial operation `a*b + 1`. -/
theorem one_by_one_reduction_returns_element_witness :
    dmatreduceScalar (0 : Int) (fun a b => a * b + 1)
        (DMat.mk 1 1 (fun _ _ => 5)) = 5 ∧
    dmatreduceSIMD 2 (fun a b => a * b + 1) false
        (DMat.mk 1 1 (fun _ _ => 5)) = 5 :=
  ⟨one_by_one_reduction_returns_element.1 Int 0 _ _ rfl rfl,
   one_by_one_reduction_returns_element.2 2 _ false _ (by decide) rfl rfl⟩

/-- C7. A matrix with zero rows or zero columns reduces to the default
(zero) element in every backend, without error; and plain-assigning a
column-wise reduction of a zero-row matrix resets the target vector to
zero. -/
theorem empty_matrix_reduces_to_default :
    (∀ (β : Type) (dflt : β) (op : β → β → β) (A : DMat β),
      A.rows = 0 ∨ A.cols = 0 → dmatreduceScalar dflt op A = dflt) ∧
    (∀ (L : Nat) (op : Int → Int → Int) (isMult : Bool) (A : DMat Int),
      A.rows = 0 ∨ A.cols = 0 → dmatreduceSIMD L op isMult A = 0) ∧
    (∀ (L : Nat) (remainder : Bool) (A : DMat Int),
      A.rows = 0 ∨ A.cols = 0 → dmatreduceAdd L remainder A = 0) ∧
    (∀ (op : Int → Int → Int) (A : DMat Int), A.rows = 0 →
      assignColwise op A = resetVec A.cols) := by
  refine ⟨?_, ?_, ?_, ?_⟩
  · intro β dflt op A h
    rw [dmatreduceScalar, if_pos h]
  · intro L op isMult A h
    rw [dmatreduceSIMD, if_pos h]
  · intro L remainder A h
    rw [dmatreduceAdd, if_pos h]
  · intro op A h
    rw [assignColwise, if_pos h]

/-- Witness for C7: the three backends and the plain assignment on
concrete empty matrices. -/
theorem empty_matrix_reduces_to_default_witness :
    dmatreduceScalar (0 : Int) (· + ·) (DMat.mk 0 3 (fun _ _ => 5)) = 0 ∧
    dmatreduceSIMD 2 (· + ·) false (DMat.mk 3 0 (fun _ _ => 5)) = 0 ∧
    dmatreduceAdd 2 true (DMat.mk 0 0 (fun _ _ => 5)) = 0 ∧
    assignColwise (· + ·) (DMat.mk 0 3 (fun _ _ => 5)) = resetVec 3 :=
  ⟨empty_matrix_reduces_to_default.1 Int 0 _ _ (Or.inl rfl),
   empty_matrix_reduces_to_default.2.1 2 _ false _ (Or.inr rfl),
   empty_matrix_reduces_to_default.2.2.1 2 true _ (Or.inl rfl),
   empty_matrix_reduces_to_default.2.2.2 _ _ rfl⟩

/-- C8. The SIMD capability decision is exactly: the operand's
composite type declares SIMD-enabled storage, and then the declared
`simdEnabled` capability (constant value, or the value returned by the
invoked probe) if present, otherwise the presence of a vectorized
`load` member; and whenever the decision is false, the dispatch runs
the scalar kernel. -/
theorem simd_capability_decision (t : SimdTraits) :
    (dmatReduceHelperValue t = true ↔
      t.ctSimdEnabled = true ∧
        ((∃ b, t.capability = SimdCapability.const b ∧ b = true) ∨
         (∃ f, t.capability = SimdCapability.probe f ∧ f () = true) ∨
         (t.capability = SimdCapability.absent ∧ t.hasLoad = true))) ∧
    (∀ (L : Nat) (op : Int → Int → Int) (isMult : Bool) (A : DMat Int),
      dmatReduceHelperValue t = false →
        dmatreduceDispatch t L op isMult A = dmatreduceScalar 0 op A) := by
  constructor
  · rcases t with ⟨ct, cap, hl⟩
    cases cap with
    | absent => cases ct <;> cases hl <;>
        simp [dmatReduceHelperValue, useSIMDEnabledFlag]
    | const b => cases ct <;> cases b <;>
        simp [dmatReduceHelperValue, useSIMDEnabledFlag]
    | probe f =>
      cases ct <;> cases hf : f () <;>
        simp [dmatReduceHelperValue, useSIMDEnabledFlag, hf]
  · intro L op isMult A h
    rw [dmatreduceDispatch, if_neg (by simp [h])]

/-- Witness for C8: the dispatch on a trait record with SIMD-disabled
storage degrades to the scalar kernel. -/
theorem simd_capability_decision_witness :
    dmatreduceDispatch (SimdTraits.mk false SimdCapability.absent true) 2
        (· + ·) false (DMat.mk 1 1 (fun _ _ => 5)) =
      dmatreduceScalar 0 (· + ·) (DMat.mk 1 1 (fun _ _ => 5)) :=
  (simd_capability_decision (SimdTraits.mk false SimdCapability.absent true)).2
    2 (· + ·) false (DMat.mk 1 1 (fun _ _ => 5)) rfl

/-- C9. Add-assigning a reduction expression into a size-matching
target yields, elementwise, the old target plus the materialized
reduction result: on the incremental per-row path taken when the
operation is the addition functor, on the materialize-then-add
fallback path, and on the row-wise path that adds the freshly computed
reduction. -/
theorem addAssign_old_plus_reduction :
    (∀ (A : DMat Int) (lhs : List Int), lhs.length = A.cols →
      addAssignColwise (· + ·) true A lhs =
        List.zipWith (· + ·) lhs (assignColwise (· + ·) A)) ∧
    (∀ (op : Int → Int → Int) (A : DMat Int) (lhs : List Int), 0 < A.rows →
      addAssignColwise op false A lhs =
        List.zipWith (· + ·) lhs (assignColwise op A)) ∧
    (∀ (op : Int → Int → Int) (A : DMat Int) (lhs : List Int),
      addAssignRowwise op A lhs =
        List.zipWith (· + ·) lhs
          ((List.range A.rows).map (reduceExpr1Elem 0 op A))) := by
  refine ⟨?_, ?_, ?_⟩
  · intro A lhs h
    rw [addAssignColwise, assignColwise_add_eq_colSums]
    by_cases h0 : A.rows = 0
    · rw [if_pos h0, colSumsVec_zero A h0, resetVec,
        zipWith_add_replicate_zero lhs _ h]
    · rw [if_neg h0, if_pos rfl, addAssign_incremental_eq A A.rows lhs h,
        colSumsVec]
  · intro op A lhs h0
    rw [addAssignColwise, if_neg (by omega), if_neg (by simp)]
  · intro op A lhs
    rfl

/-- Witness for C9: the incremental path on `[[1,2],[3,4]]` into the
pre-populated target `[10, 20]`. -/
theorem addAssign_old_plus_reduction_witness :
    addAssignColwise (· + ·) true
        (DMat.mk 2 2 (fun i j => ((2 * i + j + 1 : Nat) : Int))) [10, 20] =
      List.zipWith (· + ·) [10, 20]
        (assignColwise (· + ·)
          (DMat.mk 2 2 (fun i j => ((2 * i + j + 1 : Nat) : Int)))) :=
  addAssign_old_plus_reduction.1 _ [10, 20] (by decide)

/-- C10. When the matrix operand of a column-wise reduction expression
has zero rows, the multiplication assignment resets every element of
the dense target to zero while the addition and subtraction
assignments return immediately and leave the target unchanged. -/
theorem zero_row_assign_behaviors (op : Int → Int → Int) (isAdd isMult : Bool)
    (A : DMat Int) (lhs : List Int) (h : A.rows = 0) :
    multAssignColwise op isMult A lhs = resetVec lhs.length ∧
    addAssignColwise op isAdd A lhs = lhs ∧
    subAssignColwise op isAdd A lhs = lhs := by
  refine ⟨?_, ?_, ?_⟩
  · rw [multAssignColwise, if_pos h]
  · rw [addAssignColwise, if_pos h]
  · rw [subAssignColwise, if_pos h]

/-- Witness for C10: the three assignments of a zero-row reduction on
the concrete target `[3, 4]`. -/
theorem zero_row_assign_behaviors_witness :
    multAssignColwise (· + ·) false (DMat.mk 0 2 (fun _ _ => 0)) [3, 4] =
      resetVec 2 ∧
    addAssignColwise (· + ·) false (DMat.mk 0 2 (fun _ _ => 0)) [3, 4] = [3, 4] ∧
    subAssignColwise (· + ·) false (DMat.mk 0 2 (fun _ _ => 0)) [3, 4] = [3, 4] :=
  zero_row_assign_behaviors (· + ·) false false (DMat.mk 0 2 (fun _ _ => 0))
    [3, 4] rfl

end Blaze
